import Mathlib

/-!
Verification of the mini-cpu repository (compiler + instruction set + VM).

The definitions below are a shallow embedding of `src/main.rs`,
`src/compiler.rs` and `src/macros.rs`.  16-bit machine words are modelled
as `Nat` (with explicit `% 65536` where the Rust code wraps), bytes as
`Fin 256` (the `u8` type invariant), and every Rust operation that can
panic (slice indexing out of bounds, failed `assert!`, `unwrap` of
`checked_add`) is modelled as returning `none` / a dedicated `crash`
constructor.  Identifiers keep their source names where the gate allows;
the parser-level `Macro` family is rendered as `Makro` here.
-/

namespace MiniCpu

/-- Decidable equality for `Except`, so results of fallible operations
can be checked on concrete inputs. -/
instance {ε α : Type} [DecidableEq ε] [DecidableEq α] :
    DecidableEq (Except ε α) := fun x y =>
  match x, y with
  | .ok a, .ok b =>
    if h : a = b then isTrue (congrArg Except.ok h)
    else isFalse (fun hh => h (by cases hh; rfl))
  | .ok _, .error _ => isFalse (fun hh => Except.noConfusion hh)
  | .error _, .ok _ => isFalse (fun hh => Except.noConfusion hh)
  | .error e, .error f =>
    if h : e = f then isTrue (congrArg Except.error h)
    else isFalse (fun hh => h (by cases hh; rfl))

/-- Model of `terl::Span`: an opaque token carried on identifiers for
diagnostics.  `compile_calling` combines argument spans with `+`, which we
mirror on `Nat`. -/
abbrev SpanT := Nat

/-- Model of `parser::Ident` (`src/parser.rs`): shared literal text, the
owning source-unit name, and a source span.  Compared by literal text. -/
structure Ident where
  literal : String
  bufName : String
  span : SpanT
deriving DecidableEq

/-- The opcode enum `Op` from `src/main.rs`. -/
inductive Op where
  | add
  | sub
  | set
  | cpy
  | lod
  | str
deriving DecidableEq

/-- `impl FromStr for Op` (`src/main.rs`): mnemonic to opcode. -/
def opFromStr (s : String) : Option Op :=
  if s = "ADD" then some .add
  else if s = "SUB" then some .sub
  else if s = "SET" then some .set
  else if s = "CPY" then some .cpy
  else if s = "LOD" then some .lod
  else if s = "STR" then some .str
  else none

/-- `impl From<Op> for u8` (`src/main.rs`): opcode encoding byte. -/
def opToByte : Op → Nat
  | .add => 0
  | .sub => 1
  | .set => 2
  | .cpy => 3
  | .lod => 4
  | .str => 5

/-- `impl TryFrom<u8> for Op` (`src/main.rs`): decoding a byte; an
unrecognized byte yields `InvalidOp` (modelled `none`). -/
def byteToOp (b : Nat) : Option Op :=
  if b = 0 then some .add
  else if b = 1 then some .sub
  else if b = 2 then some .set
  else if b = 3 then some .cpy
  else if b = 4 then some .lod
  else if b = 5 then some .str
  else none

/-- `Command` from `src/main.rs`: opcode plus two 16-bit `Value` operands
(`Value` is a `u16`, modelled as `Nat` bounded by 65536 in theorems). -/
structure Command where
  op : Op
  a : Nat
  b : Nat
deriving DecidableEq

/-- Truncate a natural to one byte, as storing into a `u8` cell does. -/
def byte (v : Nat) : Fin 256 :=
  ⟨v % 256, Nat.mod_lt _ (by omega)⟩

/-- The `Memory` of `src/main.rs`: a flat byte buffer.  `size` is the
buffer length (conventionally 65536); `data` gives each byte.  Only the
bytes below `size` are meaningful. -/
structure Mem where
  size : Nat
  data : Nat → Fin 256

/-- `Memory::read` (`src/main.rs`): reads the two bytes at `ptr` and
`ptr+1` as a little-endian `u16`.  Rust panics when the slice
`memory[ptr..ptr+2]` is out of bounds, modelled as `none`. -/
def Mem.read (m : Mem) (ptr : Nat) : Option Nat :=
  if ptr + 2 ≤ m.size then
    some ((m.data ptr).val + 256 * (m.data (ptr + 1)).val)
  else none

/-- Store one byte of the buffer (the effect of writing a single `u8`
cell). -/
def Mem.setByte (m : Mem) (p v : Nat) : Mem :=
  { m with data := fun i => if i = p then byte v else m.data i }

/-- `Memory::write` (`src/main.rs`): stores `value.to_le_bytes()` into the
two bytes at `ptr` and `ptr+1`; out-of-bounds panics are `none`. -/
def Mem.write (m : Mem) (ptr v : Nat) : Option Mem :=
  if ptr + 2 ≤ m.size then
    some ((m.setByte ptr v).setByte (ptr + 1) (v / 256))
  else none

/-- `Op::execute` (`src/main.rs`): the semantic effect of each opcode on
memory.  Arithmetic uses `overflowing_add`/`overflowing_sub` on `u16`,
modelled with `% 65536`; a panic inside a read or write is `none`. -/
def Op.execute : Op → Mem → Nat → Nat → Option Mem
  | .add, m, a, b => do
      let tmp ← m.read a
      let vb ← m.read b
      m.write a ((tmp + vb) % 65536)
  | .sub, m, a, b => do
      let tmp ← m.read a
      let vb ← m.read b
      m.write a ((tmp + 65536 - vb) % 65536)
  | .set, m, a, b => m.write a b
  | .cpy, m, a, b => do
      let va ← m.read a
      m.write b va
  | .lod, m, a, b => do
      let ptr ← m.read b
      let data ← m.read ptr
      m.write a data
  | .str, m, a, b => do
      let data ← m.read a
      let ptr ← m.read b
      m.write ptr data

/-- `Command::encode` (`src/main.rs`) applied at offset `addr` of the
memory buffer: 1 opcode byte then `a` and `b` as little-endian `u16`,
exactly 5 bytes.  The `assert!(memory.len() >= 5)` (together with the
slicing at the call sites) panics when fewer than 5 bytes remain. -/
def encodeAt (m : Mem) (addr : Nat) (c : Command) : Option Mem :=
  if addr + 5 ≤ m.size then
    some (((((m.setByte addr (opToByte c.op)).setByte (addr + 1) c.a).setByte
      (addr + 2) (c.a / 256)).setByte (addr + 3) c.b).setByte
      (addr + 4) (c.b / 256))
  else none

/-- Result of `Command::decode` (`src/main.rs`) at an address: `crash` is
the slice/assert panic when fewer than 5 bytes remain, `invalid` the
recoverable `InvalidOp` error for an unrecognized opcode byte. -/
inductive Decoded where
  | crash
  | invalid
  | ok (c : Command)
deriving DecidableEq

/-- `Command::decode` of the slice starting at `addr`. -/
def decodeAt (m : Mem) (addr : Nat) : Decoded :=
  if addr + 5 ≤ m.size then
    match byteToOp (m.data addr).val with
    | none => .invalid
    | some op =>
        .ok ⟨op, (m.data (addr + 1)).val + 256 * (m.data (addr + 2)).val,
          (m.data (addr + 3)).val + 256 * (m.data (addr + 4)).val⟩
  else .crash

/-! ## Compiler data model (`src/parser.rs` AST, `src/compiler.rs` state) -/

/-- `parser::Calling`: instruction or function call statement. -/
structure Calling where
  called : Ident
  args : List Ident
deriving DecidableEq

/-- `parser::Macro` (renamed): a `#name args...` invocation. -/
structure MakroStx where
  called : Ident
  args : List Ident
deriving DecidableEq

/-- `parser::Stmt`: a statement of a function body. -/
inductive Stmt where
  | calling (c : Calling)
  | makro (m : MakroStx)
deriving DecidableEq

/-- `parser::Function` / `compiler::Function`: name, ordered formal
parameters and unexpanded body statements. -/
structure Func where
  name : Ident
  args : List Ident
  body : List Stmt
deriving DecidableEq

/-- `parser::Define`: `NAME = VALUE`. -/
structure DefineStx where
  name : Ident
  value : Ident
deriving DecidableEq

/-- `parser::Item`: a top-level item of a source unit. -/
inductive Item where
  | define (d : DefineStx)
  | func (f : Func)
  | calling (c : Calling)
  | makro (m : MakroStx)
deriving DecidableEq

/-- `macros::Meta`: a deferred-macro argument, its identifier and its
compile-time resolution when available. -/
structure Meta where
  id : Ident
  val : Option Nat
deriving DecidableEq

/-- `compiler::Command`: a program entry — either a concrete machine
`Command` or a deferred macro call.  The only registered deferred
capability is `print_mem`, so the captured function pointer is implicit
and only the `Meta` list is recorded. -/
inductive PCmd where
  | cmd (c : Command)
  | makroCall (metas : List Meta)
deriving DecidableEq

/-- Numeric-literal parse failures of `u16::from_str_radix`
(`std::num::ParseIntError` kinds that can arise here). -/
inductive NumErr where
  | empty
  | invalidDigit
  | overflow
deriving DecidableEq

/-- The compile-time error kinds raised in `src/compiler.rs` and
`src/macros.rs` (`terl::Error` values, keyed by what produced them),
plus `fuelOut`, the marker this embedding returns when the modelled
recursion depth is exhausted (the Rust original would recurse on the
host stack instead). -/
inductive Err where
  | unresolved (pe : NumErr) (span : SpanT)
  | arity (span : SpanT)
  | duplicateFunc (spanNew spanOld : SpanT)
  | undefinedFunc (span : SpanT)
  | undefinedMakro (span : SpanT)
  | readFile (name : String) (span : SpanT)
  | fuelOut
deriving DecidableEq

/-- `compiler::Compiler`: the symbol environment and emitted program.
The hash maps are modelled extensionally as functions. -/
structure Compiler where
  defines : String → Option Nat
  args : String → Option Nat
  functions : String → Option Func
  files : String → Bool
  commands : List PCmd

/-- Result of a compilation step.  Rust mutates `self` in place and
returns `Result<(), Error>`; accordingly an error here still carries the
compiler state as it was at the failure point. -/
inductive CResult where
  | ok (c : Compiler)
  | err (e : Err) (c : Compiler)

/-- The compiler state carried by either constructor. -/
def CResult.state : CResult → Compiler
  | .ok c => c
  | .err _ c => c

/-- Whether the step succeeded. -/
def CResult.isOk : CResult → Bool
  | .ok _ => true
  | .err _ _ => false

/-- Whether the step failed. -/
def CResult.isErr : CResult → Bool
  | .ok _ => false
  | .err _ _ => true

/-- `HashMap::insert` on a map modelled as a function. -/
def mapInsert {α : Type} (k : String) (v : α) (m : String → Option α) :
    String → Option α :=
  fun n => if n = k then some v else m n

/-- `HashMap::remove` on a map modelled as a function. -/
def mapRemove {α : Type} (k : String) (m : String → Option α) :
    String → Option α :=
  fun n => if n = k then none else m n

/-! ## Numeric literal parsing (`impl FromStr for Value`, `src/main.rs`) -/

/-- `char::to_digit`: digit value of `c` in base `radix`. -/
def toDigit (radix : Nat) (c : Char) : Option Nat :=
  let d :=
    if '0' ≤ c ∧ c ≤ '9' then some (c.toNat - '0'.toNat)
    else if 'a' ≤ c ∧ c ≤ 'z' then some (c.toNat - 'a'.toNat + 10)
    else if 'A' ≤ c ∧ c ≤ 'Z' then some (c.toNat - 'A'.toNat + 10)
    else none
  match d with
  | some v => if v < radix then some v else none
  | none => none

/-- The digit-accumulation loop of `u16::from_str_radix`: each step is a
checked multiply-and-add against the `u16` range. -/
def digitsToVal (radix : Nat) : List Char → Nat → Except NumErr Nat
  | [], acc => .ok acc
  | c :: rest, acc =>
    match toDigit radix c with
    | none => .error .invalidDigit
    | some d =>
        let acc' := acc * radix + d
        if 65535 < acc' then .error .overflow
        else digitsToVal radix rest acc'

/-- `u16::from_str_radix`: empty input is `Empty`; a leading `+` is
allowed (but not alone); a leading `-` on an unsigned type is
`InvalidDigit`; then the digit loop runs. -/
def fromStrRadix (radix : Nat) (s : List Char) : Except NumErr Nat :=
  match s with
  | [] => .error .empty
  | '+' :: [] => .error .invalidDigit
  | '-' :: _ => .error .invalidDigit
  | '+' :: rest => digitsToVal radix rest 0
  | l => digitsToVal radix l 0

/-- `impl FromStr for Value` (`src/main.rs`): strip a `0x`/`0b`/`0o`
radix marker, else parse decimal. -/
def parseValue (s : String) : Except NumErr Nat :=
  match s.data with
  | '0' :: 'x' :: rest => fromStrRadix 16 rest
  | '0' :: 'b' :: rest => fromStrRadix 2 rest
  | '0' :: 'o' :: rest => fromStrRadix 8 rest
  | l => fromStrRadix 10 l

/-! ## Symbol resolution and call compilation (`src/compiler.rs`) -/

/-- `Compiler::redirect`: resolve an identifier through the args map,
then the defines map, then as a numeric literal; a parse failure is
wrapped as an `UnresolvedIdentifier`-style error carrying the parse
error and the identifier's span. -/
def redirect (c : Compiler) (value : Ident) : Except Err Nat :=
  match c.args value.literal with
  | some v => .ok v
  | none =>
    match c.defines value.literal with
    | some v => .ok v
    | none =>
      match parseValue value.literal with
      | .ok v => .ok v
      | .error e => .error (.unresolved e value.span)

/-- The span attributed to a calling's argument list:
`args.map(get_span).reduce(|l, r| l + r).unwrap_or(called_span)`. -/
def argsSpan (cl : Calling) : SpanT :=
  match cl.args.map (fun i => i.span) with
  | [] => cl.called.span
  | s :: rest => rest.foldl (· + ·) s

/-- Result of the formal-binding loop of `Compiler::compile_calling`:
on success the updated compiler and the captured conflict set, on
failure the error and the compiler as mutated so far. -/
inductive BindRes where
  | ok (c : Compiler) (conflicts : List (String × Nat))
  | err (e : Err) (c : Compiler)

/-- Compiler state carried by a `BindRes`. -/
def BindRes.state : BindRes → Compiler
  | .ok c _ => c
  | .err _ c => c

/-- Whether the binding loop succeeded. -/
def BindRes.isOk : BindRes → Bool
  | .ok _ _ => true
  | .err _ _ => false

/-- Whether the binding loop failed. -/
def BindRes.isErr : BindRes → Bool
  | .ok _ _ => false
  | .err _ _ => true

/-- A `BindRes` error viewed as a `CResult` (how `compile_calling`'s `?`
operator propagates it). -/
def BindRes.toCResult : BindRes → CResult
  | .ok c _ => .ok c
  | .err e c => .err e c

/-- `HashMap::insert` into the conflict set (replacing any previous
entry for the same key), modelled on an association list. -/
def conflictsAdd (k : String) (v : Nat) (l : List (String × Nat)) :
    List (String × Nat) :=
  (k, v) :: l.filter (fun p => ¬ p.1 = k)

/-- The `for (arg, literal) in function.args.iter().zip(calling.args)`
loop of `Compiler::compile_calling`: resolve each actual in the current
(partially updated) environment, install the formal, and capture any
displaced previous binding into the conflict set. -/
def bindArgs (c : Compiler) (conflicts : List (String × Nat)) :
    List (Ident × Ident) → BindRes
  | [] => .ok c conflicts
  | (formal, actual) :: rest =>
    match redirect c actual with
    | .error e => .err e c
    | .ok v =>
      let key := formal.literal
      let conflicts' :=
        match c.args key with
        | some old => conflictsAdd key old conflicts
        | none => conflicts
      bindArgs { c with args := mapInsert key v c.args } conflicts' rest

/-- `Compiler::compile_define`: resolve the value and insert it into the
defines map. -/
def compileDefine (c : Compiler) (d : DefineStx) : CResult :=
  match redirect c d.value with
  | .error e => .err e c
  | .ok v => .ok { c with defines := mapInsert d.name.literal v c.defines }

/-- `Compiler::compile_function`: reject a duplicate name (carrying both
spans), else register the function unmodified. -/
def compileFunction (c : Compiler) (f : Func) : CResult :=
  match c.functions f.name.literal with
  | some exist => .err (.duplicateFunc f.name.span exist.name.span) c
  | none => .ok { c with functions := mapInsert f.name.literal f c.functions }

/-- The static table `macros::MACROS`: `print_mem` is a deferred (`Fn`)
capability, `include` a preprocess capability. -/
inductive Makro where
  | fn
  | preprocess
deriving DecidableEq

/-- Lookup in `macros::MACROS`. -/
def makros (s : String) : Option Makro :=
  if s = "print_mem" then some .fn
  else if s = "include" then some .preprocess
  else none

/- The mutually recursive compilation procedures of `src/compiler.rs`.
Rust recurses on the host stack; the embedding threads an explicit fuel
that every re-entry decrements, returning `Err.fuelOut` when exhausted.
`fs` abstracts the excluded parser and file I/O used by the `include`
preprocess capability: it maps a source-unit name to its parsed items
(`none` = the read or parse failed). -/
mutual

/-- `Compiler::compile_calling`: builtin opcode mnemonics take exactly
two resolved operands and emit a `Command`; a registered function is
arity-checked, its actuals bound over the body which is recursively
compiled, then the formals are removed and conflicts reinstated;
anything else is an undefined function. -/
def compileCalling (fs : String → Option (List Item)) :
    Nat → Compiler → Calling → CResult
  | 0, c, _ => .err .fuelOut c
  | n + 1, c, calling =>
    match opFromStr calling.called.literal with
    | some op =>
      match calling.args with
      | [a1, a2] =>
        (match redirect c a1 with
         | .error e => .err e c
         | .ok a =>
           match redirect c a2 with
           | .error e => .err e c
           | .ok b => .ok { c with commands := c.commands ++ [.cmd ⟨op, a, b⟩] })
      | _ => .err (.arity (argsSpan calling)) c
    | none =>
      match c.functions calling.called.literal with
      | some f =>
        if f.args.length = calling.args.length then
          match bindArgs c [] (f.args.zip calling.args) with
          | .err e c' => .err e c'
          | .ok c' conflicts =>
            match compileStmts fs n c' f.body with
            | .ok c'' =>
              let c3 := { c'' with
                args := f.args.foldl
                  (fun m (a : Ident) => mapRemove a.literal m) c''.args }
              .ok { c3 with
                args := conflicts.foldl
                  (fun m (p : String × Nat) => mapInsert p.1 p.2 m) c3.args }
            | r => r
        else .err (.arity (argsSpan calling)) c
      | none => .err (.undefinedFunc (argsSpan calling)) c

/-- The `for stmt in &function.body` loop (also the item loop shape):
compile statements in order, stopping at the first error. -/
def compileStmts (fs : String → Option (List Item)) :
    Nat → Compiler → List Stmt → CResult
  | 0, c, _ => .err .fuelOut c
  | _ + 1, c, [] => .ok c
  | n + 1, c, s :: rest =>
    match compileStmt fs n c s with
    | .ok c' => compileStmts fs n c' rest
    | r => r

/-- `Compiler::compile_stmt`: dispatch on the statement kind. -/
def compileStmt (fs : String → Option (List Item)) :
    Nat → Compiler → Stmt → CResult
  | 0, c, _ => .err .fuelOut c
  | n + 1, c, .calling cl => compileCalling fs n c cl
  | n + 1, c, .makro m => compileMakro fs n c m

/-- `Compiler::compile_macro`: look up the macro; a deferred (`Fn`)
capability captures a `Meta` per argument (resolution failures leave
`val` absent) and appends a deferred call to the program; the only
preprocess capability is `include`. -/
def compileMakro (fs : String → Option (List Item)) :
    Nat → Compiler → MakroStx → CResult
  | 0, c, _ => .err .fuelOut c
  | n + 1, c, m =>
    match makros m.called.literal with
    | none => .err (.undefinedMakro m.called.span) c
    | some .fn =>
      .ok { c with commands := c.commands ++
        [.makroCall (m.args.map (fun a => ⟨a, (redirect c a).toOption⟩))] }
    | some .preprocess => includeMakro fs n c m.args

/-- `macros::include`: read and compile each named source unit in order,
failing on the first unreadable/unparsable one. -/
def includeMakro (fs : String → Option (List Item)) :
    Nat → Compiler → List Ident → CResult
  | 0, c, _ => .err .fuelOut c
  | _ + 1, c, [] => .ok c
  | n + 1, c, fname :: rest =>
    match fs fname.literal with
    | none => .err (.readFile fname.literal fname.span) c
    | some items =>
      match compileFile fs n c fname.literal items with
      | .ok c' => includeMakro fs n c' rest
      | r => r

/-- `Compiler::compile_file`: register the buffer, then compile its
items in order. -/
def compileFile (fs : String → Option (List Item)) :
    Nat → Compiler → String → List Item → CResult
  | 0, c, _, _ => .err .fuelOut c
  | n + 1, c, name, items =>
    compileItems fs n
      { c with files := fun nm => if nm = name then true else c.files nm } items

/-- The item loop of `compile_file` / `main`. -/
def compileItems (fs : String → Option (List Item)) :
    Nat → Compiler → List Item → CResult
  | 0, c, _ => .err .fuelOut c
  | _ + 1, c, [] => .ok c
  | n + 1, c, it :: rest =>
    match compileItem fs n c it with
    | .ok c' => compileItems fs n c' rest
    | r => r

/-- `Compiler::compile_item`: dispatch on the item kind. -/
def compileItem (fs : String → Option (List Item)) :
    Nat → Compiler → Item → CResult
  | 0, c, _ => .err .fuelOut c
  | n + 1, c, .define d => let _ := n; compileDefine c d
  | n + 1, c, .func f => let _ := n; compileFunction c f
  | n + 1, c, .calling cl => compileCalling fs n c cl
  | n + 1, c, .makro m => compileMakro fs n c m

end

/-! ## The Runner (`Compiler::run`, `src/compiler.rs`) -/

/-- `macros::print_mem`, the only registered deferred capability: it
reads (to print) the live memory value behind each resolved `Meta` and
always returns `Ok`.  The result is `true` when no read panicked. -/
def printMemRun (m : Mem) (metas : List Meta) : Bool :=
  metas.all (fun meta =>
    match meta.val with
    | some v => (m.read v).isSome
    | none => true)

/-- The program-loading fold at the top of `Compiler::run`: concrete
commands are encoded at consecutive 5-byte slots from the entry address
(`next_command().unwrap()` panics past `u16::MAX`, hence `none`), while
deferred macro calls are indexed under the address their position would
occupy. -/
def layout (mmap : Nat → List (List Meta)) (m : Mem) (pc : Nat) :
    List PCmd → Option (Mem × (Nat → List (List Meta)))
  | [] => some (m, mmap)
  | .cmd cmd :: rest =>
    match encodeAt m pc cmd with
    | none => none
    | some m' =>
      if pc + 5 ≤ 65535 then layout mmap m' (pc + 5) rest else none
  | .makroCall metas :: rest =>
    layout (fun a => if a = pc then mmap a ++ [metas] else mmap a) m pc rest

/-- Outcome of one iteration of the `loop` in `Compiler::run`: `crash`
is any `unwrap`/panic (macro failure, short decode slice, out-of-bounds
access, program-counter overflow), `abort` the clean `InvalidOp` halt,
and `next fetch pc' m'` a completed iteration that decoded the command
at address `fetch` and will continue with local counter `pc'`. -/
inductive StepResult where
  | crash
  | abort (m : Mem)
  | next (fetch pcNext : Nat) (m : Mem)

/-- The decoded-from address of a completed iteration. -/
def StepResult.fetch? : StepResult → Option Nat
  | .next f _ _ => some f
  | _ => none

/-- The continuation program counter of a completed iteration. -/
def StepResult.pcNext? : StepResult → Option Nat
  | .next _ p _ => some p
  | _ => none

/-- Whether the iteration completed normally. -/
def StepResult.isNext : StepResult → Bool
  | .next _ _ _ => true
  | _ => false

/-- Whether the iteration halted the loop with the clean `InvalidOp`
("Aborted") outcome. -/
def StepResult.isAbort : StepResult → Bool
  | .abort _ => true
  | _ => false

/-- One iteration of the `loop` in `Compiler::run`: write the local
`pc_val` to address 0, fire the deferred macro calls indexed at
`pc_val`, then `Memory::eval(0)` (read the program counter cell, decode
there, execute), and finally advance the local `pc_val` by 5. -/
def step (mmap : Nat → List (List Meta)) (pc : Nat) (m : Mem) : StepResult :=
  match m.write 0 pc with
  | none => .crash
  | some m1 =>
    if (mmap pc).all (printMemRun m1) then
      match m1.read 0 with
      | none => .crash
      | some fetch =>
        match decodeAt m1 fetch with
        | .crash => .crash
        | .invalid => .abort m1
        | .ok cmd =>
          match cmd.op.execute m1 cmd.a cmd.b with
          | none => .crash
          | some m2 =>
            if pc + 5 ≤ 65535 then .next fetch (pc + 5) m2 else .crash
    else .crash

/-- Iterate `step` a bounded number of times, returning the surviving
local program counter and memory (`none` as soon as an iteration crashes
or aborts). -/
def runSteps (mmap : Nat → List (List Meta)) :
    Nat → Nat → Mem → Option (Nat × Mem)
  | 0, pc, m => some (pc, m)
  | n + 1, pc, m =>
    match step mmap pc m with
    | .next _ pc' m' => runSteps mmap n pc' m'
    | _ => none

/-- The conventional zero-initialized 65536-byte buffer built in `main`. -/
def mem64k : Mem := ⟨65536, fun _ => byte 0⟩

/-- The empty deferred-macro index. -/
def emptyMmap : Nat → List (List Meta) := fun _ => []

/-- The empty source-unit oracle (no includable files). -/
def fs0 : String → Option (List Item) := fun _ => none


/-! ## Concrete fixtures used by the verification scenarios -/

/-- An identifier with the given literal (span and source-unit name are
immaterial to the properties below). -/
def identOf (s : String) : Ident := ⟨s, "code.mc", 0⟩

/-- The freshly created compiler, `Compiler::default()`. -/
def compiler0 : Compiler :=
  { defines := fun _ => none
    args := fun _ => none
    functions := fun _ => none
    files := fun _ => false
    commands := [] }

/-- Program of end-to-end scenario 1: `SET 0x10 7` then `SET 0x12 0`. -/
def c3prog : List PCmd := [.cmd ⟨.set, 0x10, 7⟩, .cmd ⟨.set, 0x12, 0⟩]

/-- Scenario-1 memory after the load phase at entry `0xF000`. -/
def c3mem : Mem :=
  ((layout emptyMmap mem64k 0xF000 c3prog).map Prod.fst).getD mem64k

/-- A program whose first instruction writes address 0 (the would-be PC
cell): `SET 0 0xF00A` then `SET 0x30 9`. -/
def c1prog : List PCmd := [.cmd ⟨.set, 0x0, 0xF00A⟩, .cmd ⟨.set, 0x30, 9⟩]

/-- The loaded memory for `c1prog` at entry `0xF000`. -/
def c1mem : Mem :=
  ((layout emptyMmap mem64k 0xF000 c1prog).map Prod.fst).getD mem64k

/-- A memory with cell 2 holding 10, cell 4 holding 6 and cell 6 holding
44 (so cell 4 can serve as a pointer to cell 6). -/
def c7mem : Mem := ((mem64k.setByte 2 10).setByte 4 6).setByte 6 44

/-- A function `F x y` whose body is `SET 0x40 y`. -/
def c4func : Func :=
  ⟨identOf "F", [identOf "x", identOf "y"],
    [.calling ⟨identOf "SET", [identOf "0x40", identOf "y"]⟩]⟩

/-- A caller environment in which `x` is defined as 100 and `F` is
registered. -/
def c4comp : Compiler :=
  { defines := fun n => if n = "x" then some 100 else none
    args := fun _ => none
    functions := fun n => if n = "F" then some c4func else none
    files := fun _ => false
    commands := [] }

/-- The call `F 5 x`: the second actual names the first formal. -/
def c4call : Calling := ⟨identOf "F", [identOf "5", identOf "x"]⟩

/-- The compilation of `F 5 x` in `c4comp`. -/
def c4res : CResult := compileCalling fs0 4 c4comp c4call

/-- A function `G x x` with a duplicated formal name and empty body. -/
def c5func : Func := ⟨identOf "G", [identOf "x", identOf "x"], []⟩

/-- A caller environment with an active binding `x = 9` and `G`
registered. -/
def c5comp : Compiler :=
  { defines := fun _ => none
    args := fun n => if n = "x" then some 9 else none
    functions := fun n => if n = "G" then some c5func else none
    files := fun _ => false
    commands := [] }

/-- The call `G 1 2`. -/
def c5call : Calling := ⟨identOf "G", [identOf "1", identOf "2"]⟩

/-- The compilation of `G 1 2` in `c5comp`. -/
def c5res : CResult := compileCalling fs0 3 c5comp c5call

/-- A function `H h` with a single formal and empty body. -/
def c5okfunc : Func := ⟨identOf "H", [identOf "x"], []⟩

/-- A caller environment with an active binding `x = 9` and `H`
registered. -/
def c5okcomp : Compiler :=
  { defines := fun _ => none
    args := fun n => if n = "x" then some 9 else none
    functions := fun n => if n = "H" then some c5okfunc else none
    files := fun _ => false
    commands := [] }

/-- The call `H 3`. -/
def c5okcall : Calling := ⟨identOf "H", [identOf "3"]⟩

/-- A function `F x y` with empty body (for the error-path scenario). -/
def c9func : Func := ⟨identOf "F", [identOf "x", identOf "y"], []⟩

/-- A caller environment with an active binding `x = 9` and `F`
registered. -/
def c9comp : Compiler :=
  { defines := fun _ => none
    args := fun n => if n = "x" then some 9 else none
    functions := fun n => if n = "F" then some c9func else none
    files := fun _ => false
    commands := [] }

/-- The call `F 5 zz`: the second actual does not resolve. -/
def c9call : Calling := ⟨identOf "F", [identOf "5", identOf "zz"]⟩



/-- Association-list lookup (the view of the conflicts `HashMap`). -/
def alook (n : String) : List (String × Nat) → Option Nat
  | [] => none
  | (k, v) :: rest => if n = k then some v else alook n rest

/-- All registered functions have pairwise-distinct formal names. -/
def FnsOk (c : Compiler) : Prop :=
  ∀ name f, c.functions name = some f → (f.args.map Ident.literal).Nodup

/-- A source item registers only functions with distinct formal names. -/
def ItemOk : Item → Prop
  | .func f => (f.args.map Ident.literal).Nodup
  | _ => True

/-- Every source unit the oracle can provide satisfies `ItemOk`. -/
def FsOk (fs : String → Option (List Item)) : Prop :=
  ∀ name items, fs name = some items → ∀ it ∈ items, ItemOk it


/-! ## Shared lemmas about the memory model -/

theorem Mem.setByte_size (m : Mem) (p v : Nat) :
    (m.setByte p v).size = m.size := rfl

theorem Mem.setByte_data_self (m : Mem) (p v : Nat) :
    (m.setByte p v).data p = byte v := if_pos rfl

theorem Mem.setByte_data_other (m : Mem) (p v i : Nat) (h : ¬ i = p) :
    (m.setByte p v).data i = m.data i := if_neg h

theorem Mem.read_some {m : Mem} {ptr v : Nat} (h : m.read ptr = some v) :
    ptr + 2 ≤ m.size ∧ v = (m.data ptr).val + 256 * (m.data (ptr + 1)).val := by
  unfold Mem.read at h
  by_cases hb : ptr + 2 ≤ m.size
  · rw [if_pos hb] at h
    exact ⟨hb, (Option.some.inj h).symm⟩
  · rw [if_neg hb] at h
    exact absurd h (by simp)

theorem Mem.read_lt {m : Mem} {ptr v : Nat} (h : m.read ptr = some v) :
    v < 65536 := by
  obtain ⟨-, hv⟩ := Mem.read_some h
  have h1 := (m.data ptr).isLt
  have h2 := (m.data (ptr + 1)).isLt
  omega

theorem Mem.read_in_bounds (m : Mem) (ptr : Nat) (h : ptr + 2 ≤ m.size) :
    m.read ptr = some ((m.data ptr).val + 256 * (m.data (ptr + 1)).val) := by
  unfold Mem.read
  rw [if_pos h]

theorem Mem.write_in_bounds (m : Mem) (ptr v : Nat) (h : ptr + 2 ≤ m.size) :
    m.write ptr v = some ((m.setByte ptr v).setByte (ptr + 1) (v / 256)) := by
  unfold Mem.write
  rw [if_pos h]

theorem Mem.write_read_back {m m' : Mem} {ptr v : Nat}
    (h : m.write ptr v = some m') : m'.read ptr = some (v % 65536) := by
  unfold Mem.write at h
  by_cases hb : ptr + 2 ≤ m.size
  · rw [if_pos hb] at h
    cases h
    rw [Mem.read_in_bounds _ _ (by simpa [Mem.setByte_size] using hb)]
    rw [Mem.setByte_data_other _ _ _ _ (by omega), Mem.setByte_data_self,
        Mem.setByte_data_self]
    simp only [byte, Option.some.injEq]
    omega
  · rw [if_neg hb] at h
    exact absurd h (by simp)

theorem Mem.write_frame {m m' : Mem} {ptr v : Nat}
    (h : m.write ptr v = some m') :
    m'.size = m.size ∧
    ∀ i, ¬ i = ptr → ¬ i = ptr + 1 → m'.data i = m.data i := by
  unfold Mem.write at h
  by_cases hb : ptr + 2 ≤ m.size
  · rw [if_pos hb] at h
    cases h
    refine ⟨rfl, fun i h1 h2 => ?_⟩
    rw [Mem.setByte_data_other _ _ _ _ h2, Mem.setByte_data_other _ _ _ _ h1]
  · rw [if_neg hb] at h
    exact absurd h (by simp)




/-! ## Claim C2 (opcode numbering) -/

/-- C2, counterexample: the spec's opcode table does not match the code.
`SUB` encodes to byte 1 (not 2), `SET` to 2 (not 3), `LOD` to 4 (not 5),
`STR` to 5 (not 6); byte 2 decodes to `SET`, not `SUB`; and the bytes 1
and 4 are not reserved — they decode to `SUB` and `LOD`, both of which
execute normally. -/
theorem c2_counterexample :
    opToByte Op.sub = 1 ∧ ¬ opToByte Op.sub = 2 ∧
    opToByte Op.set = 2 ∧ ¬ opToByte Op.set = 3 ∧
    opToByte Op.lod = 4 ∧ ¬ opToByte Op.lod = 5 ∧
    opToByte Op.str = 5 ∧ ¬ opToByte Op.str = 6 ∧
    byteToOp 2 = some Op.set ∧ ¬ byteToOp 2 = some Op.sub ∧
    byteToOp 1 = some Op.sub ∧ byteToOp 4 = some Op.lod ∧
    (Op.sub.execute mem64k 2 4).isSome = true ∧
    (Op.lod.execute mem64k 2 4).isSome = true := by decide

/-- C2, amended: every opcode has the fixed 1-byte code `ADD` = 0,
`SUB` = 1, `SET` = 2, `CPY` = 3, `LOD` = 4, `STR` = 5; encoding and
decoding are mutually inverse on these codes; every byte ≥ 6 fails to
decode; and all six opcodes (there are no reserved codes) have
implemented, non-fatal execution semantics. -/
theorem c2_amended :
    (opToByte .add = 0 ∧ opToByte .sub = 1 ∧ opToByte .set = 2 ∧
     opToByte .cpy = 3 ∧ opToByte .lod = 4 ∧ opToByte .str = 5) ∧
    (∀ op, byteToOp (opToByte op) = some op) ∧
    (∀ b, 6 ≤ b → byteToOp b = none) ∧
    (∀ op : Op, (op.execute mem64k 2 4).isSome = true) := by
  refine ⟨by decide, fun op => by cases op <;> rfl, ?_,
    fun op => by cases op <;> decide⟩
  intro b hb
  simp only [byteToOp]
  rw [if_neg (by omega), if_neg (by omega), if_neg (by omega),
      if_neg (by omega), if_neg (by omega), if_neg (by omega)]

/-- C2, witness: the amended theorem applied at byte 7 and opcode `SUB`. -/
theorem c2_witness :
    byteToOp 7 = none ∧ byteToOp (opToByte Op.sub) = some Op.sub ∧
    (Op.lod.execute mem64k 2 4).isSome = true :=
  ⟨c2_amended.2.2.1 7 (by decide), c2_amended.2.1 Op.sub,
    c2_amended.2.2.2 Op.lod⟩

/-! ## Claim C6 (5-byte round-trip encoding) -/

/-- C6: for every valid `Command` (operands in the `u16` range) written
at an in-bounds address, decoding at that address returns the command
unchanged; the encoding occupies exactly the 5 bytes
`[opcode, a low, a high, b low, b high]` (little-endian operands) and
leaves every other byte of the buffer untouched. -/
theorem c6_roundtrip (m : Mem) (addr : Nat) (c : Command)
    (ha : c.a < 65536) (hb : c.b < 65536) (hroom : addr + 5 ≤ m.size) :
    ((encodeAt m addr c).map fun m' => decodeAt m' addr) = some (.ok c) ∧
    ((encodeAt m addr c).map fun m' =>
      ((m'.data addr).val, (m'.data (addr + 1)).val, (m'.data (addr + 2)).val,
       (m'.data (addr + 3)).val, (m'.data (addr + 4)).val))
      = some (opToByte c.op, c.a % 256, c.a / 256, c.b % 256, c.b / 256) ∧
    (∀ i, i < addr ∨ addr + 5 ≤ i →
      (encodeAt m addr c).map (fun m' => m'.data i) = some (m.data i)) := by
  obtain ⟨op, a, b⟩ := c
  simp only at ha hb
  have hop : opToByte op < 256 := by cases op <;> simp [opToByte]
  simp only [encodeAt, if_pos hroom, Option.map_some']
  have h0 :
      (((((m.setByte addr (opToByte op)).setByte (addr + 1) a).setByte
        (addr + 2) (a / 256)).setByte (addr + 3) b).setByte
        (addr + 4) (b / 256)).data addr = byte (opToByte op) := by
    rw [Mem.setByte_data_other _ _ _ _ (by omega),
        Mem.setByte_data_other _ _ _ _ (by omega),
        Mem.setByte_data_other _ _ _ _ (by omega),
        Mem.setByte_data_other _ _ _ _ (by omega),
        Mem.setByte_data_self]
  have h1 :
      (((((m.setByte addr (opToByte op)).setByte (addr + 1) a).setByte
        (addr + 2) (a / 256)).setByte (addr + 3) b).setByte
        (addr + 4) (b / 256)).data (addr + 1) = byte a := by
    rw [Mem.setByte_data_other _ _ _ _ (by omega),
        Mem.setByte_data_other _ _ _ _ (by omega),
        Mem.setByte_data_other _ _ _ _ (by omega),
        Mem.setByte_data_self]
  have h2 :
      (((((m.setByte addr (opToByte op)).setByte (addr + 1) a).setByte
        (addr + 2) (a / 256)).setByte (addr + 3) b).setByte
        (addr + 4) (b / 256)).data (addr + 2) = byte (a / 256) := by
    rw [Mem.setByte_data_other _ _ _ _ (by omega),
        Mem.setByte_data_other _ _ _ _ (by omega),
        Mem.setByte_data_self]
  have h3 :
      (((((m.setByte addr (opToByte op)).setByte (addr + 1) a).setByte
        (addr + 2) (a / 256)).setByte (addr + 3) b).setByte
        (addr + 4) (b / 256)).data (addr + 3) = byte b := by
    rw [Mem.setByte_data_other _ _ _ _ (by omega), Mem.setByte_data_self]
  have h4 :
      (((((m.setByte addr (opToByte op)).setByte (addr + 1) a).setByte
        (addr + 2) (a / 256)).setByte (addr + 3) b).setByte
        (addr + 4) (b / 256)).data (addr + 4) = byte (b / 256) := by
    rw [Mem.setByte_data_self]
  have hsz :
      (((((m.setByte addr (opToByte op)).setByte (addr + 1) a).setByte
        (addr + 2) (a / 256)).setByte (addr + 3) b).setByte
        (addr + 4) (b / 256)).size = m.size := rfl
  refine ⟨?_, ?_, ?_⟩
  · simp only [decodeAt, hsz, if_pos hroom, h0, h1, h2, h3, h4]
    have hbv : (byte (opToByte op)).val = opToByte op := Nat.mod_eq_of_lt hop
    rw [hbv]
    have hob : byteToOp (opToByte op) = some op := by cases op <;> rfl
    rw [hob]
    simp only [byte, Option.some.injEq, Decoded.ok.injEq, Command.mk.injEq,
      true_and]
    constructor <;> omega
  · rw [h0, h1, h2, h3, h4]
    simp only [byte, Option.some.injEq, Prod.mk.injEq]
    refine ⟨Nat.mod_eq_of_lt hop, ?_, ?_, ?_, ?_⟩ <;> first | trivial | omega
  · intro i hi
    rw [Mem.setByte_data_other _ _ _ _ (by omega),
        Mem.setByte_data_other _ _ _ _ (by omega),
        Mem.setByte_data_other _ _ _ _ (by omega),
        Mem.setByte_data_other _ _ _ _ (by omega),
        Mem.setByte_data_other _ _ _ _ (by omega)]

/-- C6, witness: the round trip at a concrete command `LOD 0x1234 7`
written at offset 1 of the conventional buffer. -/
theorem c6_witness :
    (⟨Op.lod, 0x1234, 7⟩ : Command).a < 65536 ∧
    (⟨Op.lod, 0x1234, 7⟩ : Command).b < 65536 ∧ 1 + 5 ≤ mem64k.size ∧
    ((encodeAt mem64k 1 ⟨Op.lod, 0x1234, 7⟩).map fun m' => decodeAt m' 1)
      = some (.ok ⟨Op.lod, 0x1234, 7⟩) :=
  ⟨by decide, by decide, by decide,
    (c6_roundtrip mem64k 1 ⟨Op.lod, 0x1234, 7⟩ (by decide) (by decide)
      (by decide)).1⟩

/-! ## Claim C7 (opcode effects) -/

/-- C7: with 16-bit cell reads and writes, `SUB` stores
`mem[a] - mem[b]` (wrapping) at `a`, `SET` stores the immediate `b` at
`a`, `LOD` stores `mem[mem[b]]` at `a`, and `STR` stores `mem[a]` at
`mem[b]`; in each case only the two bytes of the written cell change. -/
theorem c7_effects (m : Mem) (a b va vb w : Nat)
    (hra : m.read a = some va) (hrb : m.read b = some vb)
    (hrp : m.read vb = some w) (hbv : b < 65536) :
    (∃ m1, Op.sub.execute m a b = some m1 ∧
      m1.read a = some ((va + 65536 - vb) % 65536) ∧ m1.size = m.size ∧
      ∀ i, ¬ i = a → ¬ i = a + 1 → m1.data i = m.data i) ∧
    (∃ m2, Op.set.execute m a b = some m2 ∧
      m2.read a = some b ∧ m2.size = m.size ∧
      ∀ i, ¬ i = a → ¬ i = a + 1 → m2.data i = m.data i) ∧
    (∃ m3, Op.lod.execute m a b = some m3 ∧
      m3.read a = some w ∧ m3.size = m.size ∧
      ∀ i, ¬ i = a → ¬ i = a + 1 → m3.data i = m.data i) ∧
    (∃ m4, Op.str.execute m a b = some m4 ∧
      m4.read vb = some va ∧ m4.size = m.size ∧
      ∀ i, ¬ i = vb → ¬ i = vb + 1 → m4.data i = m.data i) := by
  have hva := Mem.read_lt hra
  have hvb := Mem.read_lt hrb
  have hw := Mem.read_lt hrp
  have hain : a + 2 ≤ m.size := (Mem.read_some hra).1
  have hpin : vb + 2 ≤ m.size := (Mem.read_some hrp).1
  refine ⟨?_, ?_, ?_, ?_⟩
  · have hs : Op.sub.execute m a b = m.write a ((va + 65536 - vb) % 65536) := by
      show (m.read a >>= fun tmp => m.read b >>= fun v2 =>
        m.write a ((tmp + 65536 - v2) % 65536)) = _
      rw [hra, hrb]
      rfl
    rw [Mem.write_in_bounds m a _ hain] at hs
    refine ⟨_, hs, ?_,
      (Mem.write_frame (Mem.write_in_bounds m a _ hain)).1,
      (Mem.write_frame (Mem.write_in_bounds m a _ hain)).2⟩
    rw [Mem.write_read_back
      (Mem.write_in_bounds m a ((va + 65536 - vb) % 65536) hain)]
    congr 1
    omega
  · have hs : Op.set.execute m a b = m.write a b := rfl
    rw [Mem.write_in_bounds m a b hain] at hs
    refine ⟨_, hs, ?_,
      (Mem.write_frame (Mem.write_in_bounds m a b hain)).1,
      (Mem.write_frame (Mem.write_in_bounds m a b hain)).2⟩
    rw [Mem.write_read_back (Mem.write_in_bounds m a b hain)]
    congr 1
    omega
  · have hs : Op.lod.execute m a b = m.write a w := by
      show (m.read b >>= fun ptr => m.read ptr >>= fun data =>
        m.write a data) = _
      rw [hrb]
      show (m.read vb >>= fun data => m.write a data) = _
      rw [hrp]
      rfl
    rw [Mem.write_in_bounds m a w hain] at hs
    refine ⟨_, hs, ?_,
      (Mem.write_frame (Mem.write_in_bounds m a w hain)).1,
      (Mem.write_frame (Mem.write_in_bounds m a w hain)).2⟩
    rw [Mem.write_read_back (Mem.write_in_bounds m a w hain)]
    congr 1
    omega
  · have hs : Op.str.execute m a b = m.write vb va := by
      show (m.read a >>= fun data => m.read b >>= fun ptr =>
        m.write ptr data) = _
      rw [hra, hrb]
      rfl
    rw [Mem.write_in_bounds m vb va hpin] at hs
    refine ⟨_, hs, ?_,
      (Mem.write_frame (Mem.write_in_bounds m vb va hpin)).1,
      (Mem.write_frame (Mem.write_in_bounds m vb va hpin)).2⟩
    rw [Mem.write_read_back (Mem.write_in_bounds m vb va hpin)]
    congr 1
    omega

/-- C7, witness: the four effects on the concrete memory `c7mem`
(cell 2 = 10, cell 4 = 6, cell 6 = 44), with `a` = 2 and `b` = 4. -/
theorem c7_witness :
    c7mem.read 2 = some 10 ∧ c7mem.read 4 = some 6 ∧
    c7mem.read 6 = some 44 ∧
    (∃ m1, Op.sub.execute c7mem 2 4 = some m1 ∧
      m1.read 2 = some ((10 + 65536 - 6) % 65536) ∧ m1.size = c7mem.size ∧
      ∀ i, ¬ i = 2 → ¬ i = 2 + 1 → m1.data i = c7mem.data i) ∧
    (∃ m3, Op.lod.execute c7mem 2 4 = some m3 ∧
      m3.read 2 = some 44 ∧ m3.size = c7mem.size ∧
      ∀ i, ¬ i = 2 → ¬ i = 2 + 1 → m3.data i = c7mem.data i) := by
  have h := c7_effects c7mem 2 4 10 6 44 (by decide) (by decide) (by decide)
    (by decide)
  exact ⟨by decide, by decide, by decide, h.1, h.2.2.1⟩

/-! ## Claim C8 (redirect resolution) -/

/-- C8: `redirect` resolves an identifier first through the args map,
then the defines map (args shadow defines), then by parsing the literal
text as a numeric value (`0x2A` → 42, `0b101` → 5, `0o17` → 15,
`99` → 99); when everything fails it returns an unresolved-identifier
error annotated with the parse error and the identifier's span. -/
theorem c8_redirect :
    (∀ c id v, c.args id.literal = some v → redirect c id = .ok v) ∧
    (∀ c id v, c.args id.literal = none → c.defines id.literal = some v →
      redirect c id = .ok v) ∧
    (∀ c id v, c.args id.literal = none → c.defines id.literal = none →
      parseValue id.literal = .ok v → redirect c id = .ok v) ∧
    (∀ c id pe, c.args id.literal = none → c.defines id.literal = none →
      parseValue id.literal = .error pe →
      redirect c id = .error (.unresolved pe id.span)) ∧
    (redirect compiler0 (identOf "0x2A") = .ok 42 ∧
     redirect compiler0 (identOf "0b101") = .ok 5 ∧
     redirect compiler0 (identOf "0o17") = .ok 15 ∧
     redirect compiler0 (identOf "99") = .ok 99) := by
  refine ⟨fun c id v h => ?_, fun c id v h1 h2 => ?_, fun c id v h1 h2 h3 => ?_,
    fun c id pe h1 h2 h3 => ?_, by decide, by decide, by decide, by decide⟩
  · unfold redirect
    rw [h]
  · unfold redirect
    rw [h1, h2]
  · unfold redirect
    rw [h1, h2, h3]
  · unfold redirect
    rw [h1, h2, h3]

/-- C8, witness: an args binding `k = 2` shadows a defines binding
`k = 1`; removing it falls through to defines; literal parsing and the
annotated failure case at concrete identifiers. -/
theorem c8_witness :
    redirect (⟨fun n => if n = "k" then some 1 else none,
               fun n => if n = "k" then some 2 else none,
               fun _ => none, fun _ => false, []⟩ : Compiler)
      (identOf "k") = .ok 2 ∧
    redirect (⟨fun n => if n = "k" then some 1 else none, fun _ => none,
               fun _ => none, fun _ => false, []⟩ : Compiler)
      (identOf "k") = .ok 1 ∧
    redirect compiler0 (identOf "0x2A") = .ok 42 ∧
    redirect compiler0 (identOf "zz")
      = .error (.unresolved .invalidDigit 0) := by
  refine ⟨?_, ?_, c8_redirect.2.2.2.2.1, ?_⟩
  · exact c8_redirect.1 _ (identOf "k") 2 (by decide)
  · exact c8_redirect.2.1 _ (identOf "k") 1 (by decide) (by decide)
  · exact c8_redirect.2.2.2.1 compiler0 (identOf "zz") .invalidDigit
      (by decide) (by decide) (by decide)

/-! ## Claim C10 (memory access bounds) -/

/-- C10: `Memory::read` and `Memory::write` access exactly the two bytes
at `ptr` and `ptr + 1`; on the conventional 65536-byte buffer every
access at `ptr` ≤ 0xFFFE succeeds while an access at 0xFFFF reaches past
the buffer and fails, so the operations are not total over the 16-bit
address space. -/
theorem c10_bounds (m : Mem) (v : Nat) (hsz : m.size = 65536) :
    (∀ ptr, ptr ≤ 0xFFFE →
      (m.read ptr).isSome = true ∧ (m.write ptr v).isSome = true) ∧
    m.read 0xFFFF = none ∧ m.write 0xFFFF v = none ∧
    (∀ ptr, ptr + 2 ≤ m.size →
      m.read ptr = some ((m.data ptr).val + 256 * (m.data (ptr + 1)).val)) ∧
    (∀ ptr i, ptr + 2 ≤ m.size → ¬ i = ptr → ¬ i = ptr + 1 →
      (m.write ptr v).map (fun m' => m'.data i) = some (m.data i)) := by
  refine ⟨fun ptr hp => ⟨?_, ?_⟩, ?_, ?_,
    fun ptr h => Mem.read_in_bounds m ptr h, fun ptr i h h1 h2 => ?_⟩
  · rw [Mem.read_in_bounds m ptr (by omega)]
    rfl
  · rw [Mem.write_in_bounds m ptr v (by omega)]
    rfl
  · unfold Mem.read
    rw [if_neg (by omega)]
  · unfold Mem.write
    rw [if_neg (by omega)]
  · rw [Mem.write_in_bounds m ptr v h]
    simp only [Option.map_some', Option.some.injEq]
    rw [Mem.setByte_data_other _ _ _ _ h2, Mem.setByte_data_other _ _ _ _ h1]

/-- C10, witness: bounds behaviour of the conventional buffer at the
last two addresses of the 16-bit space. -/
theorem c10_witness :
    mem64k.size = 65536 ∧
    (mem64k.read 0xFFFE).isSome = true ∧
    (mem64k.write 0xFFFE 300).isSome = true ∧
    mem64k.read 0xFFFF = none ∧ mem64k.write 0xFFFF 300 = none := by
  have h := c10_bounds mem64k 300 (by decide)
  have h1 := h.1 0xFFFE (by decide)
  exact ⟨by decide, h1.1, h1.2, h.2.1, h.2.2.1⟩


/-! ## Claim C3 (end-to-end scenario 1) -/

/-- C3, counterexample: after the two `SET`s execute (memory 0x10 = 7,
0x12 = 0 as claimed), the loop does not halt: the third iteration, whose
local counter is 0xF00A, completes normally instead of aborting with the
claimed `InvalidOpcode`. -/
theorem c3_counterexample :
    ((runSteps emptyMmap 2 0xF000 c3mem).bind fun s => s.2.read 0x10)
      = some 7 ∧
    ((runSteps emptyMmap 2 0xF000 c3mem).bind fun s => s.2.read 0x12)
      = some 0 ∧
    (runSteps emptyMmap 2 0xF000 c3mem).map Prod.fst = some 0xF00A ∧
    ((runSteps emptyMmap 2 0xF000 c3mem).map fun s =>
      (step emptyMmap s.1 s.2).isAbort) = some false ∧
    (runSteps emptyMmap 3 0xF000 c3mem).isSome = true := by decide

/-- C3, amended: the scenario leaves 0x10 = 7 and 0x12 = 0, but the next
fetch does not fail with `InvalidOpcode`: the uninitialized byte 0 is the
valid opcode `ADD`, so the fetch decodes `ADD 0 0` and the loop
continues. -/
theorem c3_amended :
    ((runSteps emptyMmap 2 0xF000 c3mem).bind fun s => s.2.read 0x10)
      = some 7 ∧
    ((runSteps emptyMmap 2 0xF000 c3mem).bind fun s => s.2.read 0x12)
      = some 0 ∧
    ((runSteps emptyMmap 2 0xF000 c3mem).map fun s => decodeAt s.2 s.1)
      = some (.ok ⟨.add, 0, 0⟩) ∧
    ((runSteps emptyMmap 2 0xF000 c3mem).map fun s =>
      (step emptyMmap s.1 s.2).isNext) = some true := by decide

/-! ## Claim C1 (program counter lives at address 0) -/

/-- C1, counterexample: running `c1prog` (whose first instruction is
`SET 0 0xF00A`), the first iteration leaves 0xF00A in the cell at
address 0, yet the second iteration fetches from 0xF005 — the loop's
local counter — not from the address written at 0, and executes the
instruction there (`SET 0x30 9`, visible as memory 0x30 = 9).  The cell
at address 0 is found overwritten with 0xF005 afterwards. -/
theorem c1_counterexample :
    ((runSteps emptyMmap 1 0xF000 c1mem).bind fun s => s.2.read 0)
      = some 0xF00A ∧
    ((runSteps emptyMmap 1 0xF000 c1mem).map fun s =>
      (step emptyMmap s.1 s.2).fetch?) = some (some 0xF005) ∧
    ¬ ((runSteps emptyMmap 1 0xF000 c1mem).map fun s =>
      (step emptyMmap s.1 s.2).fetch?) = some (some 0xF00A) ∧
    ((runSteps emptyMmap 2 0xF000 c1mem).bind fun s => s.2.read 0x30)
      = some 9 ∧
    ((runSteps emptyMmap 2 0xF000 c1mem).bind fun s => s.2.read 0)
      = some 0xF005 := by decide

/-- C1, amended: each iteration of `Compiler::run` first writes the
loop's own program-counter variable to address 0 and then fetches
through address 0, so every completed iteration fetches from exactly
that variable's value and continues with it advanced by 5 — regardless
of any write to address 0 by the executed opcode, which the next
iteration overwrites.  Control flow therefore lives in a separate local
counter, not in memory. -/
theorem c1_amended (mm : Nat → List (List Meta)) (pc : Nat) (m : Mem)
    (hpc : pc < 65536) (h : (step mm pc m).isNext = true) :
    (step mm pc m).fetch? = some pc ∧
    (step mm pc m).pcNext? = some (pc + 5) := by
  unfold step at h ⊢
  cases hw : m.write 0 pc with
  | none =>
    rw [hw] at h
    simp [StepResult.isNext] at h
  | some m1 =>
    rw [hw] at h
    simp only at h ⊢
    have hr : m1.read 0 = some pc := by
      rw [Mem.write_read_back hw]
      rw [Nat.mod_eq_of_lt hpc]
    simp only [hr] at h ⊢
    cases hmac : (mm pc).all (printMemRun m1) with
    | false =>
      simp only [hmac, Bool.false_eq_true, if_false] at h
      simp [StepResult.isNext] at h
    | true =>
      simp only [hmac, if_true] at h ⊢
      cases hd : decodeAt m1 pc with
      | crash =>
        simp only [hd] at h
        simp [StepResult.isNext] at h
      | invalid =>
        simp only [hd] at h
        simp [StepResult.isNext] at h
      | ok cmd =>
        simp only [hd] at h ⊢
        cases hex : cmd.op.execute m1 cmd.a cmd.b with
        | none =>
          simp only [hex] at h
          simp [StepResult.isNext] at h
        | some m2 =>
          simp only [hex] at h ⊢
          by_cases hpn : pc + 5 ≤ 65535
          · rw [if_pos hpn]
            exact ⟨rfl, rfl⟩
          · rw [if_neg hpn] at h
            simp [StepResult.isNext] at h

/-- C1, witness: the amended theorem at the first iteration of the
`c1prog` run. -/
theorem c1_witness :
    (0xF000 : Nat) < 65536 ∧
    (step emptyMmap 0xF000 c1mem).isNext = true ∧
    (step emptyMmap 0xF000 c1mem).fetch? = some 0xF000 ∧
    (step emptyMmap 0xF000 c1mem).pcNext? = some (0xF000 + 5) := by
  have h := c1_amended emptyMmap 0xF000 c1mem (by decide) (by decide)
  exact ⟨by decide, by decide, h.1, h.2⟩


/-! ## Unfolding lemmas for the compilation procedures -/

theorem bindArgs_nil (c : Compiler) (conflicts : List (String × Nat)) :
    bindArgs c conflicts [] = .ok c conflicts := rfl

theorem bindArgs_cons_err (c : Compiler) (conflicts : List (String × Nat))
    (formal actual : Ident) (rest : List (Ident × Ident)) (e : Err)
    (h : redirect c actual = .error e) :
    bindArgs c conflicts ((formal, actual) :: rest) = .err e c := by
  unfold bindArgs
  rw [h]

theorem bindArgs_cons_ok (c : Compiler) (conflicts : List (String × Nat))
    (formal actual : Ident) (rest : List (Ident × Ident)) (v : Nat)
    (h : redirect c actual = .ok v) :
    bindArgs c conflicts ((formal, actual) :: rest) =
      bindArgs { c with args := mapInsert formal.literal v c.args }
        (match c.args formal.literal with
         | some old => conflictsAdd formal.literal old conflicts
         | none => conflicts) rest := by
  conv_lhs => unfold bindArgs
  rw [h]

theorem compileStmts_nil (fs : String → Option (List Item)) (n : Nat)
    (c : Compiler) : compileStmts fs (n + 1) c [] = .ok c := rfl

theorem compileStmts_cons (fs : String → Option (List Item)) (n : Nat)
    (c : Compiler) (s : Stmt) (rest : List Stmt) :
    compileStmts fs (n + 1) c (s :: rest) =
      match compileStmt fs n c s with
      | .ok c' => compileStmts fs n c' rest
      | r => r := rfl

theorem compileStmt_calling (fs : String → Option (List Item)) (n : Nat)
    (c : Compiler) (cl : Calling) :
    compileStmt fs (n + 1) c (.calling cl) = compileCalling fs n c cl := rfl

theorem compileCalling_builtin (fs : String → Option (List Item)) (n : Nat)
    (c : Compiler) (calling : Calling) (op : Op) (a1 a2 : Ident) (va vb : Nat)
    (hop : opFromStr calling.called.literal = some op)
    (hargs : calling.args = [a1, a2])
    (h1 : redirect c a1 = .ok va) (h2 : redirect c a2 = .ok vb) :
    compileCalling fs (n + 1) c calling =
      .ok { c with commands := c.commands ++ [.cmd ⟨op, va, vb⟩] } := by
  unfold compileCalling
  simp only [hop, hargs, h1, h2]

theorem compileCalling_func (fs : String → Option (List Item)) (n : Nat)
    (c : Compiler) (calling : Calling) (f : Func)
    (hop : opFromStr calling.called.literal = none)
    (hfn : c.functions calling.called.literal = some f)
    (hlen : f.args.length = calling.args.length) :
    compileCalling fs (n + 1) c calling =
      match bindArgs c [] (f.args.zip calling.args) with
      | .err e c' => .err e c'
      | .ok c' conflicts =>
        match compileStmts fs n c' f.body with
        | .ok c'' =>
          .ok { c'' with
            args := conflicts.foldl
              (fun m (p : String × Nat) => mapInsert p.1 p.2 m)
              (f.args.foldl (fun m (a : Ident) => mapRemove a.literal m)
                c''.args) }
        | r => r := by
  unfold compileCalling
  simp only [hop, hfn, if_pos hlen]

theorem redirect_congr {c c' : Compiler} (id : Ident)
    (hargs : c'.args id.literal = c.args id.literal)
    (hdef : c'.defines id.literal = c.defines id.literal) :
    redirect c' id = redirect c id := by
  unfold redirect
  rw [hargs, hdef]

/-! ## Claim C9 (error path skips the restore epilogue) -/

/-- C9: when `compile_calling` on a registered function fails — either in
the binding loop (a later actual fails to resolve, after earlier formals
were installed) or while compiling a body statement — the error result is
exactly the failing sub-step's result: the error propagates immediately
and neither the formal-removal loop nor the conflict reinstatement runs,
so the args map is left as the failure point left it. -/
theorem c9_no_restore (fs : String → Option (List Item)) (fuel : Nat)
    (c : Compiler) (cl : Calling) (f : Func)
    (hop : opFromStr cl.called.literal = none)
    (hfn : c.functions cl.called.literal = some f)
    (hlen : f.args.length = cl.args.length) :
    ((bindArgs c [] (f.args.zip cl.args)).isErr = true →
      compileCalling fs (fuel + 1) c cl
        = (bindArgs c [] (f.args.zip cl.args)).toCResult) ∧
    ((bindArgs c [] (f.args.zip cl.args)).isOk = true →
      (compileStmts fs fuel (bindArgs c [] (f.args.zip cl.args)).state
        f.body).isErr = true →
      compileCalling fs (fuel + 1) c cl
        = compileStmts fs fuel (bindArgs c [] (f.args.zip cl.args)).state
            f.body) := by
  rw [compileCalling_func fs fuel c cl f hop hfn hlen]
  cases hb : bindArgs c [] (f.args.zip cl.args) with
  | err e c' =>
    exact ⟨fun _ => rfl, fun hok _ => by simp [BindRes.isOk] at hok⟩
  | ok c' conflicts =>
    refine ⟨fun hisErr => by simp [BindRes.isErr] at hisErr, fun _ hserr => ?_⟩
    simp only [BindRes.state] at hserr ⊢
    cases hs : compileStmts fs fuel c' f.body with
    | ok c'' =>
      rw [hs] at hserr
      simp [CResult.isErr] at hserr
    | err e2 c2 =>
      rfl

/-- C9, witness: calling `F 5 zz` (second actual unresolvable) in an
environment where `x` is bound to 9 fails, and the error state still has
the first formal installed (`x` = 5), not the caller's binding 9. -/
theorem c9_witness :
    (compileCalling fs0 3 c9comp c9call).isErr = true ∧
    compileCalling fs0 3 c9comp c9call
      = (bindArgs c9comp [] (c9func.args.zip c9call.args)).toCResult ∧
    (compileCalling fs0 3 c9comp c9call).state.args "x" = some 5 ∧
    c9comp.args "x" = some 9 := by
  have h := (c9_no_restore fs0 2 c9comp c9call c9func (by decide) (by decide)
    (by decide)).1 (by decide)
  exact ⟨by decide, h, by decide, by decide⟩

/-! ## Claim C4 (actual-argument resolution order) -/

/-- C4, amended: `compile_calling` resolves each actual in the
environment as it stands after the earlier formals of the same call have
already been installed (resolution and binding are interleaved
left-to-right), so an actual naming an earlier formal receives that
formal's just-installed value — here, calling `F a1 a2` on
`F x y = SET dst y` with `a2` spelling the name `x` binds `y` to `v1`
(the first actual's value) and emits `SET dv v1`, regardless of what the
caller's environment says the name `x` means. -/
theorem c4_amended (fs : String → Option (List Item)) (fuel : Nat)
    (c : Compiler) (fname x y a1 a2 sid dst yid : Ident) (sop : Op)
    (v1 dv : Nat)
    (hf : opFromStr fname.literal = none)
    (hfn : c.functions fname.literal =
      some ⟨fname, [x, y], [.calling ⟨sid, [dst, yid]⟩]⟩)
    (hyx : ¬ y.literal = x.literal)
    (ha2 : a2.literal = x.literal)
    (ha1 : redirect c a1 = .ok v1)
    (hax : c.args x.literal = none)
    (hay : c.args y.literal = none)
    (hsid : opFromStr sid.literal = some sop)
    (hyid : yid.literal = y.literal)
    (hdx : ¬ dst.literal = x.literal) (hdy : ¬ dst.literal = y.literal)
    (hdst : redirect c dst = .ok dv) :
    (compileCalling fs (fuel + 4) c ⟨fname, [a1, a2]⟩).isOk = true ∧
    (compileCalling fs (fuel + 4) c ⟨fname, [a1, a2]⟩).state.commands
      = c.commands ++ [.cmd ⟨sop, dv, v1⟩] := by
  have hcf := compileCalling_func fs (fuel + 3) c ⟨fname, [a1, a2]⟩
    ⟨fname, [x, y], [.calling ⟨sid, [dst, yid]⟩]⟩ hf hfn rfl
  have hb1 : bindArgs c [] [(x, a1), (y, a2)] =
      bindArgs { c with args := mapInsert x.literal v1 c.args } [] [(y, a2)] := by
    rw [bindArgs_cons_ok c [] x a1 [(y, a2)] v1 ha1, hax]
  have hr2 : redirect { c with args := mapInsert x.literal v1 c.args } a2
      = .ok v1 := by
    have hl : ({ c with args := mapInsert x.literal v1 c.args } :
        Compiler).args a2.literal = some v1 := by
      show (if a2.literal = x.literal then some v1 else c.args a2.literal)
        = some v1
      rw [if_pos ha2]
    unfold redirect
    rw [hl]
  have hb2 : bindArgs { c with args := mapInsert x.literal v1 c.args } []
      [(y, a2)] =
      .ok { c with args := (mapInsert y.literal v1
        (mapInsert x.literal v1 c.args)) } [] := by
    rw [bindArgs_cons_ok _ [] y a2 [] v1 hr2]
    have hy : ({ c with args := mapInsert x.literal v1 c.args } :
        Compiler).args y.literal = none := by
      show (if y.literal = x.literal then some v1 else c.args y.literal) = none
      rw [if_neg hyx, hay]
    rw [hy]
    rfl
  have hrd : redirect { c with args := (mapInsert y.literal v1
      (mapInsert x.literal v1 c.args)) } dst = .ok dv := by
    have h1 : ({ c with args := (mapInsert y.literal v1
        (mapInsert x.literal v1 c.args)) } : Compiler).args dst.literal
        = c.args dst.literal := by
      show (if dst.literal = y.literal then some v1
        else if dst.literal = x.literal then some v1
        else c.args dst.literal) = _
      rw [if_neg hdy, if_neg hdx]
    exact (redirect_congr dst h1 rfl).trans hdst
  have hry : redirect { c with args := (mapInsert y.literal v1
      (mapInsert x.literal v1 c.args)) } yid = .ok v1 := by
    have h1 : ({ c with args := (mapInsert y.literal v1
        (mapInsert x.literal v1 c.args)) } : Compiler).args yid.literal
        = some v1 := by
      show (if yid.literal = y.literal then some v1
        else if yid.literal = x.literal then some v1
        else c.args yid.literal) = some v1
      rw [if_pos hyid]
    unfold redirect
    rw [h1]
  have hstmt := compileCalling_builtin fs fuel
    { c with args := (mapInsert y.literal v1 (mapInsert x.literal v1 c.args)) }
    ⟨sid, [dst, yid]⟩ sop dst yid dv v1 hsid rfl hrd hry
  have hbody : compileStmts fs (fuel + 3)
      { c with args := (mapInsert y.literal v1 (mapInsert x.literal v1 c.args)) }
      [.calling ⟨sid, [dst, yid]⟩] =
      .ok { c with
        args := (mapInsert y.literal v1 (mapInsert x.literal v1 c.args)),
        commands := c.commands ++ [.cmd ⟨sop, dv, v1⟩] } := by
    have e1 : compileStmts fs (fuel + 3)
        { c with args := (mapInsert y.literal v1
          (mapInsert x.literal v1 c.args)) }
        [.calling ⟨sid, [dst, yid]⟩] =
        match compileStmt fs (fuel + 2)
          { c with args := (mapInsert y.literal v1
            (mapInsert x.literal v1 c.args)) }
          (.calling ⟨sid, [dst, yid]⟩) with
        | .ok c' => compileStmts fs (fuel + 2) c' []
        | r => r := compileStmts_cons fs (fuel + 2) _ _ _
    rw [e1, compileStmt_calling fs (fuel + 1), hstmt]
    rfl
  constructor
  · show (compileCalling fs (fuel + 3 + 1) c ⟨fname, [a1, a2]⟩).isOk = true
    rw [hcf]
    simp only [List.zip, List.zipWith, hb1, hb2, hbody]
    rfl
  · show (compileCalling fs (fuel + 3 + 1) c
      ⟨fname, [a1, a2]⟩).state.commands = c.commands ++ [.cmd ⟨sop, dv, v1⟩]
    rw [hcf]
    simp only [List.zip, List.zipWith, hb1, hb2, hbody]
    rfl

/-- C4, counterexample: compiling `F 5 x` against `F x y = SET 0x40 y`
with the caller's `x` defined as 100 emits `SET 0x40 5` — the actual `x`
resolved to the just-installed first formal (5), not to the caller's
binding (100), which refutes eager resolution in the caller's
environment. -/
theorem c4_counterexample :
    c4res.isOk = true ∧
    c4res.state.commands = [.cmd ⟨Op.set, 64, 5⟩] ∧
    redirect c4comp (identOf "x") = .ok 100 ∧
    ¬ c4res.state.commands = [.cmd ⟨Op.set, 64, 100⟩] := by decide

/-- C4, witness: the amended theorem at the concrete `F 5 x` call. -/
theorem c4_witness :
    (compileCalling fs0 4 c4comp c4call).isOk = true ∧
    (compileCalling fs0 4 c4comp c4call).state.commands
      = c4comp.commands ++ [.cmd ⟨Op.set, 64, 5⟩] ∧
    redirect c4comp (identOf "x") = .ok 100 := by
  have h := c4_amended fs0 0 c4comp (identOf "F") (identOf "x") (identOf "y")
    (identOf "5") (identOf "x") (identOf "SET") (identOf "0x40") (identOf "y")
    Op.set 5 64 (by decide) (by decide) (by decide) (by decide) (by decide)
    (by decide) (by decide) (by decide) (by decide) (by decide) (by decide)
    (by decide)
  exact ⟨h.1, h.2, by decide⟩

theorem alook_some_mem {n : String} {L : List (String × Nat)} {v : Nat}
    (h : alook n L = some v) : n ∈ L.map Prod.fst := by
  induction L with
  | nil => simp [alook] at h
  | cons p rest ih =>
    obtain ⟨k, w⟩ := p
    by_cases hk : n = k
    · simp [hk]
    · simp only [alook, if_neg hk] at h
      simp [ih h]

theorem alook_none_of_not_mem {n : String} {L : List (String × Nat)}
    (h : ¬ n ∈ L.map Prod.fst) : alook n L = none := by
  induction L with
  | nil => rfl
  | cons p rest ih =>
    obtain ⟨k, w⟩ := p
    simp only [List.map_cons, List.mem_cons] at h
    push_neg at h
    simp only [alook, if_neg h.1]
    exact ih h.2

theorem alook_filter_ne {n k : String} (L : List (String × Nat))
    (h : ¬ n = k) :
    alook n (L.filter (fun p => ¬ p.1 = k)) = alook n L := by
  induction L with
  | nil => rfl
  | cons p rest ih =>
    obtain ⟨k', w⟩ := p
    by_cases hk : k' = k
    · subst hk
      rw [List.filter_cons_of_neg (by simp)]
      rw [ih]
      simp only [alook]
      rw [if_neg h]
    · rw [List.filter_cons_of_pos (by simpa using hk)]
      by_cases hn : n = k'
      · simp only [alook, if_pos hn]
      · simp only [alook, if_neg hn]
        exact ih

theorem conflictsAdd_keys_nodup (k : String) (v : Nat)
    (acc : List (String × Nat)) (h : (acc.map Prod.fst).Nodup) :
    ((conflictsAdd k v acc).map Prod.fst).Nodup := by
  unfold conflictsAdd
  simp only [List.map_cons, List.nodup_cons]
  constructor
  · intro hmem
    simp only [List.mem_map] at hmem
    obtain ⟨p, hp, hpk⟩ := hmem
    have := List.of_mem_filter hp
    simp only [decide_eq_true_eq] at this
    exact this hpk
  · exact List.Nodup.sublist ((List.filter_sublist _).map Prod.fst) h

theorem foldl_remove_eq (L : List Ident) (A : String → Option Nat)
    (n : String) :
    (L.foldl (fun m (a : Ident) => mapRemove a.literal m) A) n
      = if n ∈ L.map Ident.literal then none else A n := by
  induction L generalizing A with
  | nil => simp
  | cons a L ih =>
    simp only [List.foldl_cons, ih, List.map_cons, List.mem_cons]
    by_cases h1 : n ∈ L.map Ident.literal
    · rw [if_pos h1, if_pos (Or.inr h1)]
    · rw [if_neg h1]
      by_cases h2 : n = a.literal
      · rw [if_pos (Or.inl h2)]
        unfold mapRemove
        rw [if_pos h2]
      · rw [if_neg (by tauto)]
        unfold mapRemove
        rw [if_neg h2]

theorem foldl_insert_eq (L : List (String × Nat)) (A : String → Option Nat)
    (n : String) (hnd : (L.map Prod.fst).Nodup) :
    (L.foldl (fun m (p : String × Nat) => mapInsert p.1 p.2 m) A) n
      = match alook n L with
        | some v => some v
        | none => A n := by
  induction L generalizing A with
  | nil => simp [alook]
  | cons p L ih =>
    obtain ⟨k, v⟩ := p
    simp only [List.map_cons, List.nodup_cons] at hnd
    simp only [List.foldl_cons, ih _ hnd.2]
    by_cases hn : n = k
    · subst hn
      rw [alook_none_of_not_mem (show ¬ n ∈ L.map Prod.fst by
        simpa using hnd.1)]
      simp [alook, mapInsert]
    · simp only [alook, if_neg hn]
      cases halk : alook n L with
      | some w => rfl
      | none =>
        unfold mapInsert
        rw [if_neg hn]



theorem bindArgs_ok_frame : ∀ (pairs : List (Ident × Ident)) (c : Compiler)
    (acc : List (String × Nat)) {cb : Compiler}
    {conflicts : List (String × Nat)},
    bindArgs c acc pairs = .ok cb conflicts →
    cb.defines = c.defines ∧ cb.functions = c.functions ∧
    cb.files = c.files ∧ cb.commands = c.commands := by
  intro pairs
  induction pairs with
  | nil =>
    intro c acc cb conflicts h
    rw [bindArgs_nil] at h
    simp only [BindRes.ok.injEq] at h
    obtain ⟨rfl, rfl⟩ := h
    exact ⟨rfl, rfl, rfl, rfl⟩
  | cons p rest ih =>
    intro c acc cb conflicts h
    obtain ⟨formal, actual⟩ := p
    cases hr : redirect c actual with
    | error e =>
      rw [bindArgs_cons_err _ _ _ _ _ _ hr] at h
      exact absurd h (by simp)
    | ok v =>
      rw [bindArgs_cons_ok _ _ _ _ _ _ hr] at h
      have hx := ih _ _ h
      exact hx

theorem bindArgs_ok_untouched : ∀ (pairs : List (Ident × Ident))
    (c : Compiler) (acc : List (String × Nat)) {cb : Compiler}
    {conflicts : List (String × Nat)} (n : String),
    bindArgs c acc pairs = .ok cb conflicts →
    ¬ n ∈ pairs.map (fun p => p.1.literal) →
    cb.args n = c.args n ∧ alook n conflicts = alook n acc := by
  intro pairs
  induction pairs with
  | nil =>
    intro c acc cb conflicts n h _
    rw [bindArgs_nil] at h
    simp only [BindRes.ok.injEq] at h
    obtain ⟨rfl, rfl⟩ := h
    exact ⟨rfl, rfl⟩
  | cons p rest ih =>
    intro c acc cb conflicts n h hn
    obtain ⟨formal, actual⟩ := p
    simp only [List.map_cons, List.mem_cons] at hn
    push_neg at hn
    cases hr : redirect c actual with
    | error e =>
      rw [bindArgs_cons_err _ _ _ _ _ _ hr] at h
      exact absurd h (by simp)
    | ok v =>
      rw [bindArgs_cons_ok _ _ _ _ _ _ hr] at h
      cases hca : c.args formal.literal with
      | some old =>
        simp only [hca] at h
        obtain ⟨h1, h2⟩ := ih _ _ n h hn.2
        refine ⟨?_, ?_⟩
        · rw [h1]
          show (if n = formal.literal then some v else c.args n) = c.args n
          exact if_neg hn.1
        · rw [h2]
          unfold conflictsAdd
          simp only [alook, if_neg hn.1]
          exact alook_filter_ne acc hn.1
      | none =>
        simp only [hca] at h
        obtain ⟨h1, h2⟩ := ih _ _ n h hn.2
        refine ⟨?_, h2⟩
        rw [h1]
        show (if n = formal.literal then some v else c.args n) = c.args n
        exact if_neg hn.1

theorem bindArgs_ok_conflicts : ∀ (pairs : List (Ident × Ident))
    (c : Compiler) (acc : List (String × Nat)) {cb : Compiler}
    {conflicts : List (String × Nat)} (n : String),
    bindArgs c acc pairs = .ok cb conflicts →
    (pairs.map (fun p => p.1.literal)).Nodup →
    (∀ k, k ∈ acc.map Prod.fst → ¬ k ∈ pairs.map (fun p => p.1.literal)) →
    n ∈ pairs.map (fun p => p.1.literal) →
    alook n conflicts = c.args n := by
  intro pairs
  induction pairs with
  | nil =>
    intro c acc cb conflicts n h _ _ hn
    simp at hn
  | cons p rest ih =>
    intro c acc cb conflicts n h hnd hdisj hn
    obtain ⟨formal, actual⟩ := p
    simp only [List.map_cons, List.nodup_cons] at hnd
    simp only [List.map_cons, List.mem_cons] at hn hdisj
    cases hr : redirect c actual with
    | error e =>
      rw [bindArgs_cons_err _ _ _ _ _ _ hr] at h
      exact absurd h (by simp)
    | ok v =>
      rw [bindArgs_cons_ok _ _ _ _ _ _ hr] at h
      rcases hn with hn | hn
      · cases hca : c.args formal.literal with
        | some old =>
          simp only [hca] at h
          have hu := (bindArgs_ok_untouched rest _ _ n h
            (by rw [hn]; exact hnd.1)).2
          rw [hu]
          unfold conflictsAdd
          simp only [alook, if_pos hn]
          rw [hn, hca]
        | none =>
          simp only [hca] at h
          have hu := (bindArgs_ok_untouched rest _ _ n h
            (by rw [hn]; exact hnd.1)).2
          rw [hu, hn, hca]
          exact alook_none_of_not_mem
            (fun hmem => hdisj _ hmem (Or.inl rfl))
      · have hnf : ¬ n = formal.literal := fun he => hnd.1 (he ▸ hn)
        cases hca : c.args formal.literal with
        | some old =>
          simp only [hca] at h
          have hdisj2 : ∀ k,
              k ∈ (conflictsAdd formal.literal old acc).map Prod.fst →
              ¬ k ∈ rest.map (fun p => p.1.literal) := by
            intro k hk
            unfold conflictsAdd at hk
            simp only [List.map_cons, List.mem_cons] at hk
            rcases hk with rfl | hk
            · exact hnd.1
            · simp only [List.mem_map] at hk
              obtain ⟨q, hq, rfl⟩ := hk
              exact fun hmem => hdisj _ (List.mem_map_of_mem Prod.fst
                (List.mem_of_mem_filter hq)) (Or.inr hmem)
          have := ih _ _ n h hnd.2 hdisj2 hn
          rw [this]
          show (if n = formal.literal then some v else c.args n) = c.args n
          exact if_neg hnf
        | none =>
          simp only [hca] at h
          have hdisj2 : ∀ k, k ∈ acc.map Prod.fst →
              ¬ k ∈ rest.map (fun p => p.1.literal) :=
            fun k hk hmem => hdisj k hk (Or.inr hmem)
          have := ih _ _ n h hnd.2 hdisj2 hn
          rw [this]
          show (if n = formal.literal then some v else c.args n) = c.args n
          exact if_neg hnf

theorem bindArgs_ok_keys_nodup : ∀ (pairs : List (Ident × Ident))
    (c : Compiler) (acc : List (String × Nat)) {cb : Compiler}
    {conflicts : List (String × Nat)},
    bindArgs c acc pairs = .ok cb conflicts →
    (acc.map Prod.fst).Nodup → (conflicts.map Prod.fst).Nodup := by
  intro pairs
  induction pairs with
  | nil =>
    intro c acc cb conflicts h hacc
    rw [bindArgs_nil] at h
    simp only [BindRes.ok.injEq] at h
    obtain ⟨rfl, rfl⟩ := h
    exact hacc
  | cons p rest ih =>
    intro c acc cb conflicts h hacc
    obtain ⟨formal, actual⟩ := p
    cases hr : redirect c actual with
    | error e =>
      rw [bindArgs_cons_err _ _ _ _ _ _ hr] at h
      exact absurd h (by simp)
    | ok v =>
      rw [bindArgs_cons_ok _ _ _ _ _ _ hr] at h
      cases hca : c.args formal.literal with
      | some old =>
        simp only [hca] at h
        exact ih _ _ h (conflictsAdd_keys_nodup _ _ _ hacc)
      | none =>
        simp only [hca] at h
        exact ih _ _ h hacc

theorem bindArgs_restore {pairs : List (Ident × Ident)} {c cb : Compiler}
    {conflicts : List (String × Nat)} (formals : List Ident)
    (hform : pairs.map Prod.fst = formals)
    (h : bindArgs c [] pairs = .ok cb conflicts)
    (hnd : (pairs.map (fun p => p.1.literal)).Nodup)
    (A : String → Option Nat) (hA : ∀ n, A n = cb.args n) (n : String) :
    (conflicts.foldl (fun m (p : String × Nat) => mapInsert p.1 p.2 m)
      (formals.foldl (fun m (a : Ident) => mapRemove a.literal m) A)) n
      = c.args n := by
  subst hform
  have hkeys : (pairs.map Prod.fst).map Ident.literal
      = pairs.map (fun p => p.1.literal) := by
    rw [List.map_map]
    rfl
  rw [foldl_insert_eq _ _ _ (bindArgs_ok_keys_nodup pairs c [] h (by simp))]
  rw [foldl_remove_eq]
  by_cases hmem : n ∈ (pairs.map Prod.fst).map Ident.literal
  · rw [if_pos hmem]
    rw [bindArgs_ok_conflicts pairs c [] n h hnd (by simp) (hkeys ▸ hmem)]
    cases c.args n <;> rfl
  · rw [if_neg hmem]
    have hu := bindArgs_ok_untouched pairs c [] n h (hkeys ▸ hmem)
    rw [hu.2]
    simp only [alook]
    rw [hA n, hu.1]


/-- The mutual preservation result behind C5: every compilation
procedure, when it succeeds, returns with the args map pointwise equal
to the one it started from, and keeps every registered function's
formals distinct — assuming the starting registry and every includable
source unit satisfy that distinctness. -/
theorem compile_preserves_args (fs : String → Option (List Item))
    (hfs : FsOk fs) : ∀ fuel : Nat,
    (∀ c cl c', FnsOk c → compileCalling fs fuel c cl = .ok c' →
      (∀ n, c'.args n = c.args n) ∧ FnsOk c') ∧
    (∀ c s c', FnsOk c → compileStmt fs fuel c s = .ok c' →
      (∀ n, c'.args n = c.args n) ∧ FnsOk c') ∧
    (∀ c l c', FnsOk c → compileStmts fs fuel c l = .ok c' →
      (∀ n, c'.args n = c.args n) ∧ FnsOk c') ∧
    (∀ c m c', FnsOk c → compileMakro fs fuel c m = .ok c' →
      (∀ n, c'.args n = c.args n) ∧ FnsOk c') ∧
    (∀ c l c', FnsOk c → includeMakro fs fuel c l = .ok c' →
      (∀ n, c'.args n = c.args n) ∧ FnsOk c') ∧
    (∀ c name items c', FnsOk c → (∀ it ∈ items, ItemOk it) →
      compileFile fs fuel c name items = .ok c' →
      (∀ n, c'.args n = c.args n) ∧ FnsOk c') ∧
    (∀ c items c', FnsOk c → (∀ it ∈ items, ItemOk it) →
      compileItems fs fuel c items = .ok c' →
      (∀ n, c'.args n = c.args n) ∧ FnsOk c') ∧
    (∀ c it c', FnsOk c → ItemOk it → compileItem fs fuel c it = .ok c' →
      (∀ n, c'.args n = c.args n) ∧ FnsOk c') := by
  intro fuel
  induction fuel with
  | zero =>
    refine ⟨fun c cl c' _ h => ?_, fun c s c' _ h => ?_,
      fun c l c' _ h => ?_, fun c m c' _ h => ?_, fun c l c' _ h => ?_,
      fun c name items c' _ _ h => ?_, fun c items c' _ _ h => ?_,
      fun c it c' _ _ h => ?_⟩ <;>
      simp [compileCalling, compileStmt, compileStmts, compileMakro,
        includeMakro, compileFile, compileItems, compileItem] at h
  | succ n ih =>
    obtain ⟨ihCalling, ihStmt, ihStmts, ihMakro, ihInclude, ihFile,
      ihItems, ihItem⟩ := ih
    refine ⟨?_, ?_, ?_, ?_, ?_, ?_, ?_, ?_⟩
    · intro c cl c' hF h
      cases hop : opFromStr cl.called.literal with
      | some op =>
        simp only [compileCalling, hop] at h
        rcases hlist : cl.args with _ | ⟨a1, _ | ⟨a2, _ | ⟨a3, t⟩⟩⟩
        · rw [hlist] at h
          simp at h
        · rw [hlist] at h
          simp at h
        · rw [hlist] at h
          cases hr1 : redirect c a1 with
          | error e =>
            simp only [hr1] at h
            exact absurd h (by simp)
          | ok va =>
            cases hr2 : redirect c a2 with
            | error e =>
              simp only [hr1, hr2] at h
              exact absurd h (by simp)
            | ok vb =>
              simp only [hr1, hr2] at h
              simp only [CResult.ok.injEq] at h
              subst h
              exact ⟨fun m => rfl, hF⟩
        · rw [hlist] at h
          simp at h
      | none =>
        simp only [compileCalling, hop] at h
        cases hfn : c.functions cl.called.literal with
        | none =>
          simp only [hfn] at h
          exact absurd h (by simp)
        | some f =>
          simp only [hfn] at h
          by_cases hlen : f.args.length = cl.args.length
          · rw [if_pos hlen] at h
            cases hb : bindArgs c [] (f.args.zip cl.args) with
            | err e cb =>
              simp only [hb] at h
              exact absurd h (by simp)
            | ok cb conflicts =>
              simp only [hb] at h
              cases hs : compileStmts fs n cb f.body with
              | err e2 c2 =>
                simp only [hs] at h
                exact absurd h (by simp)
              | ok c2 =>
                simp only [hs] at h
                simp only [CResult.ok.injEq] at h
                subst h
                have hframe := bindArgs_ok_frame _ _ _ hb
                have hFcb : FnsOk cb := by
                  intro name g hg
                  rw [hframe.2.1] at hg
                  exact hF name g hg
                obtain ⟨pa, hFc2⟩ := ihStmts cb f.body c2 hFcb hs
                have hnd : ((f.args.zip cl.args).map
                    (fun p => p.1.literal)).Nodup := by
                  have h1 : (f.args.zip cl.args).map Prod.fst = f.args :=
                    List.map_fst_zip _ _ (le_of_eq hlen)
                  have h2 : ((f.args.zip cl.args).map Prod.fst).map
                      Ident.literal
                      = (f.args.zip cl.args).map (fun p => p.1.literal) := by
                    rw [List.map_map]
                    rfl
                  rw [← h2, h1]
                  exact hF _ f hfn
                constructor
                · intro m
                  exact bindArgs_restore f.args
                    (List.map_fst_zip _ _ (le_of_eq hlen)) hb hnd c2.args pa m
                · exact hFc2
          · rw [if_neg hlen] at h
            exact absurd h (by simp)
    · intro c s c' hF h
      cases s with
      | calling cl => exact ihCalling c cl c' hF h
      | makro m => exact ihMakro c m c' hF h
    · intro c l c' hF h
      cases l with
      | nil =>
        rw [compileStmts_nil] at h
        simp only [CResult.ok.injEq] at h
        subst h
        exact ⟨fun m => rfl, hF⟩
      | cons s rest =>
        rw [compileStmts_cons] at h
        cases hs : compileStmt fs n c s with
        | ok c1 =>
          simp only [hs] at h
          obtain ⟨p1, hF1⟩ := ihStmt c s c1 hF hs
          obtain ⟨p2, hF2⟩ := ihStmts c1 rest c' hF1 h
          exact ⟨fun m => (p2 m).trans (p1 m), hF2⟩
        | err e c1 =>
          simp only [hs] at h
          exact absurd h (by simp)
    · intro c m c' hF h
      cases hm : makros m.called.literal with
      | none =>
        simp only [compileMakro, hm] at h
        exact absurd h (by simp)
      | some mk =>
        cases mk with
        | fn =>
          simp only [compileMakro, hm] at h
          simp only [CResult.ok.injEq] at h
          subst h
          exact ⟨fun x => rfl, hF⟩
        | preprocess =>
          simp only [compileMakro, hm] at h
          exact ihInclude c m.args c' hF h
    · intro c l c' hF h
      cases l with
      | nil =>
        rw [show includeMakro fs (n + 1) c [] = .ok c from rfl] at h
        simp only [CResult.ok.injEq] at h
        subst h
        exact ⟨fun m => rfl, hF⟩
      | cons fname rest =>
        simp only [includeMakro] at h
        cases hfr : fs fname.literal with
        | none =>
          simp only [hfr] at h
          exact absurd h (by simp)
        | some items =>
          simp only [hfr] at h
          cases hcf : compileFile fs n c fname.literal items with
          | ok c1 =>
            simp only [hcf] at h
            obtain ⟨p1, hF1⟩ := ihFile c fname.literal items c1 hF
              (hfs _ _ hfr) hcf
            obtain ⟨p2, hF2⟩ := ihInclude c1 rest c' hF1 h
            exact ⟨fun m => (p2 m).trans (p1 m), hF2⟩
          | err e c1 =>
            simp only [hcf] at h
            exact absurd h (by simp)
    · intro c name items c' hF hItems h
      have h2 : compileItems fs n
          { c with files := fun nm => if nm = name then true else c.files nm }
          items = .ok c' := h
      obtain ⟨p1, hF1⟩ := ihItems
        { c with files := fun nm => if nm = name then true else c.files nm }
        items c' hF hItems h2
      exact ⟨p1, hF1⟩
    · intro c items c' hF hItems h
      cases items with
      | nil =>
        rw [show compileItems fs (n + 1) c [] = .ok c from rfl] at h
        simp only [CResult.ok.injEq] at h
        subst h
        exact ⟨fun m => rfl, hF⟩
      | cons it rest =>
        simp only [compileItems] at h
        cases hi : compileItem fs n c it with
        | ok c1 =>
          simp only [hi] at h
          obtain ⟨p1, hF1⟩ := ihItem c it c1 hF (hItems it (by simp)) hi
          obtain ⟨p2, hF2⟩ := ihItems c1 rest c' hF1
            (fun x hx => hItems x (by simp [hx])) h
          exact ⟨fun m => (p2 m).trans (p1 m), hF2⟩
        | err e c1 =>
          simp only [hi] at h
          exact absurd h (by simp)
    · intro c it c' hF hIt h
      cases it with
      | define d =>
        have h2 : compileDefine c d = .ok c' := h
        unfold compileDefine at h2
        cases hr : redirect c d.value with
        | error e =>
          simp only [hr] at h2
          exact absurd h2 (by simp)
        | ok v =>
          simp only [hr] at h2
          simp only [CResult.ok.injEq] at h2
          subst h2
          exact ⟨fun m => rfl, hF⟩
      | func f =>
        have h2 : compileFunction c f = .ok c' := h
        unfold compileFunction at h2
        cases hx : c.functions f.name.literal with
        | some g =>
          simp only [hx] at h2
          exact absurd h2 (by simp)
        | none =>
          simp only [hx] at h2
          simp only [CResult.ok.injEq] at h2
          subst h2
          refine ⟨fun m => rfl, ?_⟩
          intro name g hg
          have hg2 : (if name = f.name.literal then some f
              else c.functions name) = some g := hg
          by_cases hnm : name = f.name.literal
          · rw [if_pos hnm] at hg2
            cases hg2
            exact hIt
          · rw [if_neg hnm] at hg2
            exact hF name g hg2
      | calling cl => exact ihCalling c cl c' hF h
      | makro m => exact ihMakro c m c' hF h


/-! ## Claim C5 (environment save/restore around inlined calls) -/

/-- C5, amended: a successful `compile_calling` restores the args map to
exactly the caller's map — every formal bound for the call is removed and
every shadowed prior binding reinstated, at any recursion depth —
provided every function registered in the compiler (and every function
registrable from an included source unit) has pairwise-distinct formal
parameter names. -/
theorem c5_amended (fs : String → Option (List Item)) (fuel : Nat)
    (c : Compiler) (cl : Calling) (hfs : FsOk fs) (hF : FnsOk c)
    (hok : (compileCalling fs fuel c cl).isOk = true) :
    ∀ n, (compileCalling fs fuel c cl).state.args n = c.args n := by
  intro n
  cases hres : compileCalling fs fuel c cl with
  | ok c' =>
    have h := ((compile_preserves_args fs hfs fuel).1 c cl c' hF hres).1 n
    simpa [CResult.state] using h
  | err e c' =>
    rw [hres] at hok
    simp [CResult.isOk] at hok

/-- C5, counterexample: with a duplicated formal name the restore is
corrupted.  Calling `G 1 2` on `G x x` (empty body) with an outer
binding `x = 9` succeeds but leaves `x = 1` afterwards: the conflicts
map captured the innermost displaced value (1), not the caller's 9. -/
theorem c5_counterexample :
    c5res.isOk = true ∧
    c5res.state.args "x" = some 1 ∧
    c5comp.args "x" = some 9 ∧
    ¬ c5res.state.args "x" = c5comp.args "x" := by decide

/-- C5, witness: the amended theorem at the concrete call `H 3` on
`H x` with outer binding `x = 9`, which is restored. -/
theorem c5_witness :
    (compileCalling fs0 3 c5okcomp c5okcall).isOk = true ∧
    (compileCalling fs0 3 c5okcomp c5okcall).state.args "x"
      = c5okcomp.args "x" := by
  have hfs : FsOk fs0 := by
    intro name items h
    simp [fs0] at h
  have hF : FnsOk c5okcomp := by
    intro name f h
    by_cases hn : name = "H"
    · subst hn
      have hsf : f = c5okfunc := by
        simpa [c5okcomp] using h.symm
      subst hsf
      decide
    · exact absurd h (by simp [c5okcomp, hn])
  have h := c5_amended fs0 3 c5okcomp c5okcall hfs hF (by decide) "x"
  exact ⟨by decide, h⟩



end MiniCpu
